import Mathlib

/-!
Verification of `athena_stats.py`: the batching/upload pipeline that chunks a
stream of Athena query-execution ids into batches of at most 50, hands the
batches to a pool of worker threads over a `queue.Queue`, and has each worker
fetch the execution details, serialize them as gzip-compressed
newline-delimited JSON and upload the result to S3.

The embedding is shallow: the driver loop `loop_and_fetch_stats` becomes a
structural recursion over the list of ids, recording the chunks put on the
queue, the progress messages printed, and the trailing chunk that the driver
also re-processes synchronously.  The remote Athena and S3 calls are
collaborators and enter as function parameters; gzip is modelled abstractly by
its round-trip identity.
-/

/-- Source line 24: `MAX_ATHENA_BATCH_SIZE = 50`. -/
def MAX_ATHENA_BATCH_SIZE : Nat := 50

/-- Source line 57: `max_threads = 25`. -/
def max_threads : Nat := 25

/-- Everything `loop_and_fetch_stats` (source lines 64-83) emits: the chunks
put on the work queue in order, the per-full-batch progress messages
`(batch number, total queries)` from line 70, the final-batch message from
lines 77-80, and the chunk the driver additionally fetches and uploads
synchronously on lines 82-83. -/
structure LoopOut (α : Type) where
  queued : List (List α)
  batchMsgs : List (Nat × Nat)
  finalMsg : Option (Nat × Nat)
  syncChunk : Option (List α)
deriving Repr, DecidableEq

/-- The body of `loop_and_fetch_stats` lines 64-83, one step per id yielded by
`get_execution_ids()`: append the id to `execution_ids`; once fifty are
collected, print `(counter, counter * MAX_ATHENA_BATCH_SIZE)` and put the
chunk on the queue; after the source is exhausted, a nonempty remainder is
printed as the final batch, put on the queue, and also processed synchronously
(`get_query_executions` + `upload_to_s3`) on the driver thread. -/
def loopGo {α : Type} : List α → List α → Nat → List (List α) → List (Nat × Nat) → LoopOut α
  | [], acc, counter, queued, msgs =>
    match acc with
    | [] => ⟨queued, msgs, none, none⟩
    | a :: as =>
      ⟨queued ++ [a :: as], msgs,
        some (counter + 1, counter * MAX_ATHENA_BATCH_SIZE + (a :: as).length),
        some (a :: as)⟩
  | qid :: rest, acc, counter, queued, msgs =>
    let acc2 := acc ++ [qid]
    if acc2.length = MAX_ATHENA_BATCH_SIZE then
      loopGo rest [] (counter + 1) (queued ++ [acc2])
        (msgs ++ [(counter, counter * MAX_ATHENA_BATCH_SIZE)])
    else
      loopGo rest acc2 counter queued msgs

/-- `loop_and_fetch_stats` applied to the ids the source yields, starting from
an empty accumulator and `counter = 1` (source lines 64-65). -/
def loop_and_fetch_stats {α : Type} (ids : List α) : LoopOut α :=
  loopGo ids [] 1 [] []

/-- The uploaded objects of one run, assuming every worker succeeds: `f`
abstracts `get_query_executions` followed by `upload_to_s3`, applied once per
chunk taken from the queue, and once more by the driver for the trailing
chunk (source lines 82-83). -/
def uploadsOfRun {α β : Type} (f : List α → β) (ids : List α) : List β :=
  let r := loop_and_fetch_stats ids
  r.queued.map f ++ (match r.syncChunk with | some c => [f c] | none => [])

/-- How many uploads one run performs when every worker succeeds. -/
def numUploads {α : Type} (r : LoopOut α) : Nat :=
  r.queued.length + (match r.syncChunk with | some _ => 1 | none => 0)

/-- Grouping a list into runs of `MAX_ATHENA_BATCH_SIZE`: the reference
chunking that the driver loop is proved to implement. -/
def chunks50 {α : Type} : List α → List (List α)
  | [] => []
  | x :: xs =>
    (x :: xs).take MAX_ATHENA_BATCH_SIZE :: chunks50 ((x :: xs).drop MAX_ATHENA_BATCH_SIZE)
termination_by l => l.length
decreasing_by
  have h50 : MAX_ATHENA_BATCH_SIZE = 50 := rfl
  simp only [List.length_drop]
  simp only [List.length_cons, h50]
  omega

/-- Python's `datetime.datetime` value as far as serialization observes it. -/
structure Datetime where
  year : Nat
  month : Nat
  day : Nat
  hour : Nat
  minute : Nat
  second : Nat
  microsecond : Nat
deriving Repr, DecidableEq

/-- Python's `datetime.date` value. -/
structure PyDate where
  year : Nat
  month : Nat
  day : Nat
deriving Repr, DecidableEq

/-- One lowercase hexadecimal digit, as Python renders them. -/
def hexDigit (n : Nat) : Char :=
  "0123456789abcdef".toList.getD n '0'

/-- Decimal digits of `n`, most significant first; the fuel argument only
bounds the recursion and `n + 1` is always enough. -/
def natDigitsGo : Nat → Nat → List Char
  | 0, _ => []
  | fuel + 1, n =>
    if n < 10 then [hexDigit n]
    else natDigitsGo fuel (n / 10) ++ [hexDigit (n % 10)]

/-- Python's decimal rendering of a nonnegative integer. -/
def natRepr (n : Nat) : String :=
  String.mk (natDigitsGo (n + 1) n)

/-- Python's decimal rendering of an integer. -/
def intRepr : Int → String
  | Int.ofNat n => natRepr n
  | Int.negSucc n => "-" ++ natRepr (n + 1)

/-- Zero-padded two-digit field of `isoformat`. -/
def pad2 (n : Nat) : String :=
  if n < 10 then "0" ++ natRepr n else natRepr n

/-- Zero-padded four-digit year field of `isoformat`. -/
def pad4 (n : Nat) : String :=
  if n < 10 then "000" ++ natRepr n
  else if n < 100 then "00" ++ natRepr n
  else if n < 1000 then "0" ++ natRepr n
  else natRepr n

/-- Zero-padded six-digit microsecond field of `isoformat`. -/
def pad6 (n : Nat) : String :=
  if n < 10 then "00000" ++ natRepr n
  else if n < 100 then "0000" ++ natRepr n
  else if n < 1000 then "000" ++ natRepr n
  else if n < 10000 then "00" ++ natRepr n
  else if n < 100000 then "0" ++ natRepr n
  else natRepr n

/-- `datetime.isoformat()`: ISO-8601 extended format, the microseconds
omitted when zero. -/
def Datetime.isoformat (d : Datetime) : String :=
  pad4 d.year ++ "-" ++ pad2 d.month ++ "-" ++ pad2 d.day ++ "T" ++
    pad2 d.hour ++ ":" ++ pad2 d.minute ++ ":" ++ pad2 d.second ++
    (if d.microsecond = 0 then "" else "." ++ pad6 d.microsecond)

/-- `date.isoformat()`: the ISO-8601 calendar date. -/
def PyDate.isoformat (d : PyDate) : String :=
  pad4 d.year ++ "-" ++ pad2 d.month ++ "-" ++ pad2 d.day

mutual
/-- A Python value as `json.dumps` sees it: the JSON-native types, the
datetime and date objects handled by the `json_serial` fallback, and `jother`
for any object of a type with no JSON representation (its Python type name
attached for the error message). -/
inductive JValue : Type where
  | jnull : JValue
  | jbool (b : Bool) : JValue
  | jint (n : Int) : JValue
  | jstr (s : String) : JValue
  | jarr (items : JArray) : JValue
  | jobj (fields : JFields) : JValue
  | jdatetime (d : Datetime) : JValue
  | jdate (d : PyDate) : JValue
  | jother (tyname : String) : JValue

/-- A Python list of values. -/
inductive JArray : Type where
  | nil : JArray
  | cons (v : JValue) (tl : JArray) : JArray

/-- A Python dict with string keys, in insertion order. -/
inductive JFields : Type where
  | nil : JFields
  | cons (k : String) (v : JValue) (tl : JFields) : JFields
end

/-- What `type(obj)` prints for each modelled value. -/
def pyTypeName : JValue → String
  | .jnull => "<class 'NoneType'>"
  | .jbool _ => "<class 'bool'>"
  | .jint _ => "<class 'int'>"
  | .jstr _ => "<class 'str'>"
  | .jarr _ => "<class 'list'>"
  | .jobj _ => "<class 'dict'>"
  | .jdatetime _ => "<class 'datetime.datetime'>"
  | .jdate _ => "<class 'datetime.date'>"
  | .jother tyname => tyname

/-- The one error serialization raises: `TypeError` (source line 138). -/
inductive SerErr : Type where
  | typeError (msg : String) : SerErr
deriving Repr, DecidableEq

/-- Source lines 134-138: the `default=` fallback of `json.dumps`.  A
`datetime` or `date` is rendered by `isoformat()`; anything else raises
`TypeError("Type %s not serializable" % type(obj))`. -/
def json_serial : JValue → Except SerErr String
  | .jdatetime d => .ok d.isoformat
  | .jdate d => .ok d.isoformat
  | v => .error (.typeError ("Type " ++ pyTypeName v ++ " not serializable"))

/-- The `\uXXXX` escape of one code unit. -/
def uHex4 (n : Nat) : String :=
  String.mk [hexDigit (n / 4096 % 16), hexDigit (n / 256 % 16),
    hexDigit (n / 16 % 16), hexDigit (n % 16)]

/-- The `ensure_ascii` escape of one code point, surrogate pairs for the
astral planes. -/
def uEscape (n : Nat) : String :=
  if n < 65536 then "\\u" ++ uHex4 n
  else "\\u" ++ uHex4 (55296 + (n - 65536) / 1024) ++
    "\\u" ++ uHex4 (56320 + (n - 65536) % 1024)

/-- How `json.dumps` (with its default `ensure_ascii=True`) renders one
character inside a JSON string literal. -/
def escapeChar (c : Char) : String :=
  if c = '"' then "\\\""
  else if c = '\\' then "\\\\"
  else if c = '\n' then "\\n"
  else if c = '\t' then "\\t"
  else if c = '\r' then "\\r"
  else if c = '\x08' then "\\b"
  else if c = '\x0c' then "\\f"
  else if c.toNat < 32 ∨ 126 < c.toNat then uEscape c.toNat
  else String.singleton c

/-- Escape every character of a string body. -/
def escapeList : List Char → String
  | [] => ""
  | c :: cs => escapeChar c ++ escapeList cs

/-- A JSON string literal as `json.dumps` emits it. -/
def jsonQuote (s : String) : String :=
  "\"" ++ escapeList s.data ++ "\""

/-- `", "`-separated concatenation, the default item separator of
`json.dumps`. -/
def joinComma : List String → String
  | [] => ""
  | [s] => s
  | s :: t :: rest => s ++ ", " ++ joinComma (t :: rest)

mutual
/-- `json.dumps(record, default=json_serial)` (source line 97): the JSON
text of one value, or the `TypeError` the fallback raises. -/
def dumpsVal : JValue → Except SerErr String
  | .jnull => .ok "null"
  | .jbool true => .ok "true"
  | .jbool false => .ok "false"
  | .jint n => .ok (intRepr n)
  | .jstr s => .ok (jsonQuote s)
  | .jarr items =>
    match dumpsArr items with
    | .error e => .error e
    | .ok parts => .ok ("[" ++ joinComma parts ++ "]")
  | .jobj fields =>
    match dumpsFields fields with
    | .error e => .error e
    | .ok parts => .ok ("\x7b" ++ joinComma parts ++ "\x7d")
  | .jdatetime d =>
    match json_serial (.jdatetime d) with
    | .error e => .error e
    | .ok s => .ok (jsonQuote s)
  | .jdate d =>
    match json_serial (.jdate d) with
    | .error e => .error e
    | .ok s => .ok (jsonQuote s)
  | .jother tyname =>
    match json_serial (.jother tyname) with
    | .error e => .error e
    | .ok s => .ok (jsonQuote s)
termination_by structural v => v

/-- The serialized elements of a list, in order. -/
def dumpsArr : JArray → Except SerErr (List String)
  | .nil => .ok []
  | .cons v tl =>
    match dumpsVal v with
    | .error e => .error e
    | .ok s =>
      match dumpsArr tl with
      | .error e => .error e
      | .ok rest => .ok (s :: rest)
termination_by structural a => a

/-- The serialized `"key": value` pairs of a dict, in order. -/
def dumpsFields : JFields → Except SerErr (List String)
  | .nil => .ok []
  | .cons k v tl =>
    match dumpsVal v with
    | .error e => .error e
    | .ok s =>
      match dumpsFields tl with
      | .error e => .error e
      | .ok rest => .ok ((jsonQuote k ++ ": " ++ s) :: rest)
termination_by structural f => f
end

/-- The serialized line of every record of a batch, in order. -/
def dumpsAll : List JValue → Except SerErr (List String)
  | [] => .ok []
  | r :: rest =>
    match dumpsVal r with
    | .error e => .error e
    | .ok s =>
      match dumpsAll rest with
      | .error e => .error e
      | .ok tl => .ok (s :: tl)

/-- Source lines 92-99: the text written into the gzip buffer, one
`json.dumps(record, default=json_serial) + "\n"` per record, records in input
order; the first record that fails to serialize raises out of the loop. -/
def encode : List JValue → Except SerErr String
  | [] => .ok ""
  | r :: rest =>
    match dumpsVal r with
    | .error e => .error e
    | .ok line =>
      match encode rest with
      | .error e => .error e
      | .ok tl => .ok (line ++ "\n" ++ tl)

/-- An in-memory gzip member.  The container format is a collaborator
(`gzip.GzipFile`); it is modelled abstractly by what the pipeline relies on,
its lossless round trip. -/
structure Gzipped where
  content : String
deriving Repr, DecidableEq

/-- `gzip.GzipFile(mode='w')` writing into a fresh buffer. -/
def gzipCompress (s : String) : Gzipped := ⟨s⟩

/-- Decompressing a gzip member recovers exactly the bytes written. -/
def gunzip (g : Gzipped) : String := g.content

/-- Splitting a character list on `'\n'`. -/
def splitNLChars : List Char → List (List Char)
  | [] => [[]]
  | c :: cs =>
    if c = '\n' then [] :: splitNLChars cs
    else
      match splitNLChars cs with
      | [] => [[c]]
      | r :: rs => (c :: r) :: rs

/-- Splitting a string on newlines, the observation the round-trip property
is stated through. -/
def splitOnNL (s : String) : List String :=
  (splitNLChars s.data).map String.mk

/-- Whether a string begins with `'/'` (posix path separator). -/
def strStartsWithSlash (s : String) : Bool :=
  match s.data with
  | [] => false
  | c :: _ => c = '/'

/-- Whether a string ends with `'/'`. -/
def strEndsWithSlash (s : String) : Bool :=
  match s.data.getLast? with
  | some c => c = '/'
  | none => false

/-- Python's `os.path.join` on posix, for the two-argument call of source
line 102. -/
def os_path_join (a b : String) : String :=
  if strStartsWithSlash b then b
  else if a = "" then b
  else if strEndsWithSlash a then a ++ b
  else a ++ "/" ++ b

/-- One `s3_client.put_object` call (source lines 103-109). -/
structure PutRequest where
  bucket : String
  key : String
  contentType : String
  contentEncoding : String
  body : Gzipped
deriving Repr, DecidableEq

/-- Source lines 88-109, `upload_to_s3`: encode the records, then perform the
single PUT with key `os.path.join(prefix, str(uuid.uuid4()) + '.json.gz')`,
content type `text/plain` and content encoding `gzip`.  `u` stands for the
freshly generated `str(uuid.uuid4())`; the returned list holds every PUT the
call performs. -/
def upload_to_s3 (query_stats : List JValue) (bucket pfx u : String) :
    Except SerErr (List PutRequest) :=
  match encode query_stats with
  | .error e => .error e
  | .ok text =>
    .ok [{ bucket := bucket
           key := os_path_join pfx (u ++ ".json.gz")
           contentType := "text/plain"
           contentEncoding := "gzip"
           body := gzipCompress text }]

mutual
/-- Whether a value contains, anywhere inside it, an object of a type with no
JSON representation (and which is not a datetime or date). -/
def hasUnser : JValue → Bool
  | .jnull => false
  | .jbool _ => false
  | .jint _ => false
  | .jstr _ => false
  | .jarr items => hasUnserArr items
  | .jobj fields => hasUnserFields fields
  | .jdatetime _ => false
  | .jdate _ => false
  | .jother _ => true
termination_by structural v => v

/-- `hasUnser` over a list. -/
def hasUnserArr : JArray → Bool
  | .nil => false
  | .cons v tl => hasUnser v || hasUnserArr tl
termination_by structural a => a

/-- `hasUnser` over dict fields. -/
def hasUnserFields : JFields → Bool
  | .nil => false
  | .cons _ v tl => hasUnser v || hasUnserFields tl
termination_by structural f => f
end

/-- Whether some record of a batch contains an unserializable value. -/
def batchHasUnser (rs : List JValue) : Bool :=
  rs.any hasUnser

/-- One pass of the `do_work` loop body (source lines 45-51) on a dequeued
chunk: `process` abstracts `process_batch` (`get_query_executions` +
`upload_to_s3`), returning `none` when that call raises.  The result is
whether `q.task_done()` ran for this chunk: the falsy-empty guard skips the
whole body, and an exception in `process_batch` propagates before the
`q.task_done()` on line 49 is reached. -/
def do_work_once {α β : Type} (process : List α → Option β) (chunk : List α) : Bool :=
  if chunk.isEmpty then false
  else
    match process chunk with
    | some _ => true
    | none => false

/-- How many of the dequeued chunks ever get `q.task_done()`. -/
def doneCount {α β : Type} (process : List α → Option β) (chunks : List (List α)) : Nat :=
  (chunks.map (do_work_once process)).count true

/-- `q.join()` (source line 85) returns exactly when every chunk ever put on
the queue has been marked done. -/
def q_join_completes {α β : Type} (process : List α → Option β)
    (chunks : List (List α)) : Prop :=
  doneCount process chunks = chunks.length

/-- A `process_batch` that raises (`DetailFetchError`) on the chunk `[0]` and
succeeds on every other chunk. -/
def failing_process : List Nat → Option Unit :=
  fun c => if c = [0] then none else some ()

theorem chunks50_nil {α : Type} : chunks50 ([] : List α) = [] := by
  simp [chunks50]

theorem chunks50_cons {α : Type} :
    ∀ (l : List α), l ≠ [] →
      chunks50 l = l.take MAX_ATHENA_BATCH_SIZE :: chunks50 (l.drop MAX_ATHENA_BATCH_SIZE)
  | [], h => absurd rfl h
  | _ :: _, _ => by rw [chunks50]

theorem chunks50_eq_nil_iff {α : Type} (l : List α) : chunks50 l = [] ↔ l = [] := by
  constructor
  · intro h
    by_contra hne
    rw [chunks50_cons l hne] at h
    exact List.cons_ne_nil _ _ h
  · intro h
    subst h
    exact chunks50_nil

theorem chunks50_flatten {α : Type} (l : List α) : (chunks50 l).flatten = l := by
  by_cases h : l = []
  · subst h
    simp [chunks50_nil]
  · rw [chunks50_cons l h]
    simp only [List.flatten_cons]
    rw [chunks50_flatten (l.drop MAX_ATHENA_BATCH_SIZE)]
    exact List.take_append_drop _ l
termination_by l.length
decreasing_by
  have h0 : 0 < l.length := List.length_pos.mpr h
  have h50 : MAX_ATHENA_BATCH_SIZE = 50 := rfl
  simp only [List.length_drop]
  omega

theorem chunks50_length {α : Type} (l : List α) :
    (chunks50 l).length = (l.length + (MAX_ATHENA_BATCH_SIZE - 1)) / MAX_ATHENA_BATCH_SIZE := by
  by_cases h : l = []
  · subst h
    simp [chunks50_nil, MAX_ATHENA_BATCH_SIZE]
  · rw [chunks50_cons l h]
    have h0 : 0 < l.length := List.length_pos.mpr h
    have ih := chunks50_length (l.drop MAX_ATHENA_BATCH_SIZE)
    simp only [MAX_ATHENA_BATCH_SIZE, List.length_drop] at ih ⊢
    rw [List.length_cons, ih]
    omega
termination_by l.length
decreasing_by
  have h0 : 0 < l.length := List.length_pos.mpr h
  have h50 : MAX_ATHENA_BATCH_SIZE = 50 := rfl
  simp only [List.length_drop]
  omega

theorem chunks50_sizes {α : Type} (l : List α) :
    ∀ c ∈ chunks50 l, 1 ≤ c.length ∧ c.length ≤ MAX_ATHENA_BATCH_SIZE := by
  by_cases h : l = []
  · subst h
    simp [chunks50_nil]
  · rw [chunks50_cons l h]
    intro c hc
    rcases List.mem_cons.mp hc with hc | hc
    · subst hc
      have h0 : 0 < l.length := List.length_pos.mpr h
      simp only [List.length_take, MAX_ATHENA_BATCH_SIZE]
      omega
    · exact chunks50_sizes (l.drop MAX_ATHENA_BATCH_SIZE) c hc
termination_by l.length
decreasing_by
  have h0 : 0 < l.length := List.length_pos.mpr h
  have h50 : MAX_ATHENA_BATCH_SIZE = 50 := rfl
  simp only [List.length_drop]
  omega

theorem chunks50_dropLast_sizes {α : Type} (l : List α) :
    ∀ c ∈ (chunks50 l).dropLast, c.length = MAX_ATHENA_BATCH_SIZE := by
  by_cases h : l = []
  · subst h
    simp [chunks50_nil]
  · rw [chunks50_cons l h]
    by_cases hd : l.drop MAX_ATHENA_BATCH_SIZE = []
    · rw [hd, chunks50_nil]
      simp
    · have hne : chunks50 (l.drop MAX_ATHENA_BATCH_SIZE) ≠ [] := by
        rw [ne_eq, chunks50_eq_nil_iff]
        exact hd
      rw [List.dropLast_cons_of_ne_nil hne]
      intro c hc
      rcases List.mem_cons.mp hc with hc | hc
      · subst hc
        have hlen : MAX_ATHENA_BATCH_SIZE < l.length := by
          by_contra hle
          exact hd (List.drop_eq_nil_of_le (by omega))
        simp only [List.length_take, MAX_ATHENA_BATCH_SIZE] at *
        omega
      · exact chunks50_dropLast_sizes (l.drop MAX_ATHENA_BATCH_SIZE) c hc
termination_by l.length
decreasing_by
  have h0 : 0 < l.length := List.length_pos.mpr h
  have h50 : MAX_ATHENA_BATCH_SIZE = 50 := rfl
  simp only [List.length_drop]
  omega

/-- The chunks the driver loop queues are exactly the runs of fifty of the
accumulator followed by the remaining ids. -/
theorem loopGo_queued {α : Type} (ids : List α) :
    ∀ (acc : List α) (c : Nat) (Q : List (List α)) (M : List (Nat × Nat)),
      acc.length < MAX_ATHENA_BATCH_SIZE →
      (loopGo ids acc c Q M).queued = Q ++ chunks50 (acc ++ ids) := by
  induction ids with
  | nil =>
    intro acc c Q M hacc
    match acc with
    | [] => simp [loopGo, chunks50_nil]
    | a :: as =>
      simp only [loopGo, List.append_nil]
      rw [chunks50_cons (a :: as) (List.cons_ne_nil a as)]
      have ht : (a :: as).take MAX_ATHENA_BATCH_SIZE = a :: as :=
        List.take_of_length_le (by omega)
      have hd : (a :: as).drop MAX_ATHENA_BATCH_SIZE = [] :=
        List.drop_eq_nil_of_le (by omega)
      rw [ht, hd, chunks50_nil]
  | cons qid rest ih =>
    intro acc c Q M hacc
    simp only [loopGo]
    by_cases hfull : (acc ++ [qid]).length = MAX_ATHENA_BATCH_SIZE
    · simp only [hfull, if_true]
      rw [ih [] (c + 1) (Q ++ [acc ++ [qid]]) _ (by simp [MAX_ATHENA_BATCH_SIZE])]
      have hsplit : acc ++ qid :: rest = (acc ++ [qid]) ++ rest := by simp
      rw [hsplit]
      have hne : (acc ++ [qid]) ++ rest ≠ [] := by simp
      rw [chunks50_cons _ hne]
      rw [← hfull, List.take_left, List.drop_left]
      simp
    · simp only [hfull, if_false]
      have hlen : (acc ++ [qid]).length < MAX_ATHENA_BATCH_SIZE := by
        simp only [List.length_append, List.length_singleton] at *
        omega
      rw [ih (acc ++ [qid]) c Q M hlen]
      have hsplit : acc ++ qid :: rest = (acc ++ [qid]) ++ rest := by simp
      rw [hsplit]

/-- The driver performs the extra synchronous fetch-and-upload exactly when
the total id count is not a multiple of fifty. -/
theorem loopGo_syncChunk {α : Type} (ids : List α) :
    ∀ (acc : List α) (c : Nat) (Q : List (List α)) (M : List (Nat × Nat)),
      acc.length < MAX_ATHENA_BATCH_SIZE →
      ((loopGo ids acc c Q M).syncChunk = none ↔
        (acc ++ ids).length % MAX_ATHENA_BATCH_SIZE = 0) := by
  induction ids with
  | nil =>
    intro acc c Q M hacc
    match acc with
    | [] => simp [loopGo, MAX_ATHENA_BATCH_SIZE]
    | a :: as =>
      simp only [loopGo, List.append_nil]
      simp only [MAX_ATHENA_BATCH_SIZE] at hacc ⊢
      constructor
      · intro hcon
        exact absurd hcon (by simp)
      · intro hmod
        have hlt : (a :: as).length % 50 = (a :: as).length := Nat.mod_eq_of_lt hacc
        simp only [List.length_cons] at *
        omega
  | cons qid rest ih =>
    intro acc c Q M hacc
    simp only [loopGo]
    by_cases hfull : (acc ++ [qid]).length = MAX_ATHENA_BATCH_SIZE
    · simp only [hfull, if_true]
      rw [ih [] (c + 1) _ _ (by simp [MAX_ATHENA_BATCH_SIZE])]
      simp only [List.length_append, List.length_singleton] at hfull
      simp only [MAX_ATHENA_BATCH_SIZE] at *
      simp only [List.nil_append, List.length_append, List.length_cons, List.length_nil]
      constructor
      · intro hmod
        omega
      · intro hmod
        omega
    · simp only [hfull, if_false]
      have hlen : (acc ++ [qid]).length < MAX_ATHENA_BATCH_SIZE := by
        simp only [List.length_append, List.length_singleton] at *
        omega
      rw [ih (acc ++ [qid]) c Q M hlen]
      have hsplit : acc ++ qid :: rest = (acc ++ [qid]) ++ rest := by simp
      rw [hsplit]

/-- Whatever chunk the driver re-processes synchronously was also put on the
work queue (source lines 81-83). -/
theorem loopGo_sync_mem {α : Type} (ids : List α) :
    ∀ (acc : List α) (c : Nat) (Q : List (List α)) (M : List (Nat × Nat)) (last : List α),
      (loopGo ids acc c Q M).syncChunk = some last →
      last ∈ (loopGo ids acc c Q M).queued := by
  induction ids with
  | nil =>
    intro acc c Q M last hsync
    match acc with
    | [] => simp [loopGo] at hsync
    | a :: as =>
      simp only [loopGo, Option.some.injEq] at hsync ⊢
      rw [← hsync]
      simp
  | cons qid rest ih =>
    intro acc c Q M last hsync
    simp only [loopGo] at hsync ⊢
    by_cases hfull : (acc ++ [qid]).length = MAX_ATHENA_BATCH_SIZE
    · simp only [hfull, if_true] at hsync ⊢
      exact ih _ _ _ _ _ hsync
    · simp only [hfull, if_false] at hsync ⊢
      exact ih _ _ _ _ _ hsync

theorem data_mk (l : List Char) : (String.mk l).data = l := rfl

theorem mk_data (s : String) : String.mk s.data = s := by
  cases s
  rfl

theorem hexDigit_ne_nl : ∀ n < 16, hexDigit n ≠ '\n' := by decide

theorem uHex4_noNL (n : Nat) : '\n' ∉ (uHex4 n).data := by
  have h1 := hexDigit_ne_nl (n / 4096 % 16) (Nat.mod_lt _ (by norm_num))
  have h2 := hexDigit_ne_nl (n / 256 % 16) (Nat.mod_lt _ (by norm_num))
  have h3 := hexDigit_ne_nl (n / 16 % 16) (Nat.mod_lt _ (by norm_num))
  have h4 := hexDigit_ne_nl (n % 16) (Nat.mod_lt _ (by norm_num))
  intro h
  simp only [uHex4, data_mk, List.mem_cons, List.not_mem_nil, or_false] at h
  rcases h with h | h | h | h
  · exact h1 h.symm
  · exact h2 h.symm
  · exact h3 h.symm
  · exact h4 h.symm

theorem uEscape_noNL (n : Nat) : '\n' ∉ (uEscape n).data := by
  simp only [uEscape]
  split
  · intro h
    rw [String.data_append] at h
    rcases List.mem_append.mp h with h | h
    · revert h
      decide
    · exact uHex4_noNL n h
  · intro h
    rw [String.data_append, String.data_append, String.data_append] at h
    rcases List.mem_append.mp h with h | h
    · rcases List.mem_append.mp h with h | h
      · rcases List.mem_append.mp h with h | h
        · revert h
          decide
        · exact uHex4_noNL _ h
      · revert h
        decide
    · exact uHex4_noNL _ h

theorem escapeChar_noNL (c : Char) : '\n' ∉ (escapeChar c).data := by
  simp only [escapeChar]
  split_ifs with h1 h2 h3 h4 h5 h6 h7 h8
  · decide
  · decide
  · decide
  · decide
  · decide
  · decide
  · decide
  · exact uEscape_noNL c.toNat
  · intro hm
    have : (String.singleton c).data = [c] := rfl
    rw [this] at hm
    simp only [List.mem_singleton] at hm
    exact h3 hm.symm

theorem escapeList_noNL : ∀ (cs : List Char), '\n' ∉ (escapeList cs).data
  | [] => by
    intro h
    exact absurd h (by decide)
  | c :: cs => by
    intro h
    simp only [escapeList, String.data_append] at h
    rcases List.mem_append.mp h with h | h
    · exact escapeChar_noNL c h
    · exact escapeList_noNL cs h

theorem jsonQuote_noNL (s : String) : '\n' ∉ (jsonQuote s).data := by
  intro h
  simp only [jsonQuote, String.data_append] at h
  rcases List.mem_append.mp h with h | h
  · rcases List.mem_append.mp h with h | h
    · revert h
      decide
    · exact escapeList_noNL s.data h
  · revert h
    decide

theorem natDigitsGo_noNL : ∀ (fuel n : Nat), '\n' ∉ natDigitsGo fuel n
  | 0, n => by
    intro h
    exact absurd h (by simp [natDigitsGo])
  | fuel + 1, n => by
    intro h
    simp only [natDigitsGo] at h
    split at h
    · simp only [List.mem_singleton] at h
      exact hexDigit_ne_nl n (by omega) h.symm
    · rcases List.mem_append.mp h with h | h
      · exact natDigitsGo_noNL fuel (n / 10) h
      · simp only [List.mem_singleton] at h
        exact hexDigit_ne_nl (n % 10) (by omega) h.symm

theorem natRepr_noNL (n : Nat) : '\n' ∉ (natRepr n).data := by
  simp only [natRepr, data_mk]
  exact natDigitsGo_noNL (n + 1) n

theorem intRepr_noNL (i : Int) : '\n' ∉ (intRepr i).data := by
  cases i with
  | ofNat n => exact natRepr_noNL n
  | negSucc n =>
    intro h
    simp only [intRepr, String.data_append] at h
    rcases List.mem_append.mp h with h | h
    · revert h
      decide
    · exact natRepr_noNL (n + 1) h

theorem joinComma_noNL :
    ∀ (parts : List String), (∀ s ∈ parts, '\n' ∉ s.data) → '\n' ∉ (joinComma parts).data
  | [], _ => by
    intro h
    exact absurd h (by decide)
  | [s], hall => by
    simpa [joinComma] using hall s (by simp)
  | s :: t :: rest, hall => by
    intro h
    simp only [joinComma, String.data_append] at h
    rcases List.mem_append.mp h with h | h
    · rcases List.mem_append.mp h with h | h
      · exact hall s (by simp) h
      · revert h
        decide
    · exact joinComma_noNL (t :: rest) (fun x hx => hall x (List.mem_cons_of_mem s hx)) h

mutual
theorem dumpsVal_noNL : ∀ (v : JValue) (s : String), dumpsVal v = Except.ok s → '\n' ∉ s.data
  | .jnull, s, h => by
    simp only [dumpsVal, Except.ok.injEq] at h
    subst h
    decide
  | .jbool b, s, h => by
    cases b <;> simp only [dumpsVal, Except.ok.injEq] at h <;> (subst h; decide)
  | .jint n, s, h => by
    simp only [dumpsVal, Except.ok.injEq] at h
    subst h
    exact intRepr_noNL n
  | .jstr str, s, h => by
    simp only [dumpsVal, Except.ok.injEq] at h
    subst h
    exact jsonQuote_noNL str
  | .jarr items, s, h => by
    simp only [dumpsVal] at h
    cases ha : dumpsArr items with
    | error e =>
      rw [ha] at h
      simp at h
    | ok parts =>
      rw [ha] at h
      simp only [Except.ok.injEq] at h
      subst h
      intro hm
      simp only [String.data_append] at hm
      rcases List.mem_append.mp hm with hm | hm
      · rcases List.mem_append.mp hm with hm | hm
        · revert hm
          decide
        · exact joinComma_noNL parts (dumpsArr_noNL items parts ha) hm
      · revert hm
        decide
  | .jobj fields, s, h => by
    simp only [dumpsVal] at h
    cases ha : dumpsFields fields with
    | error e =>
      rw [ha] at h
      simp at h
    | ok parts =>
      rw [ha] at h
      simp only [Except.ok.injEq] at h
      subst h
      intro hm
      simp only [String.data_append] at hm
      rcases List.mem_append.mp hm with hm | hm
      · rcases List.mem_append.mp hm with hm | hm
        · revert hm
          decide
        · exact joinComma_noNL parts (dumpsFields_noNL fields parts ha) hm
      · revert hm
        decide
  | .jdatetime d, s, h => by
    simp only [dumpsVal, json_serial, Except.ok.injEq] at h
    subst h
    exact jsonQuote_noNL d.isoformat
  | .jdate d, s, h => by
    simp only [dumpsVal, json_serial, Except.ok.injEq] at h
    subst h
    exact jsonQuote_noNL d.isoformat
  | .jother t, s, h => by
    simp only [dumpsVal, json_serial] at h
    exact Except.noConfusion h
termination_by structural v => v

theorem dumpsArr_noNL :
    ∀ (a : JArray) (ps : List String), dumpsArr a = Except.ok ps → ∀ p ∈ ps, '\n' ∉ p.data
  | .nil, ps, h => by
    simp only [dumpsArr, Except.ok.injEq] at h
    subst h
    simp
  | .cons v tl, ps, h => by
    simp only [dumpsArr] at h
    cases hv : dumpsVal v with
    | error e =>
      rw [hv] at h
      simp at h
    | ok s1 =>
      rw [hv] at h
      cases htl : dumpsArr tl with
      | error e =>
        rw [htl] at h
        simp at h
      | ok rest =>
        rw [htl] at h
        simp only [Except.ok.injEq] at h
        subst h
        intro p hp
        rcases List.mem_cons.mp hp with hp | hp
        · rw [hp]
          exact dumpsVal_noNL v s1 hv
        · exact dumpsArr_noNL tl rest htl p hp
termination_by structural a => a

theorem dumpsFields_noNL :
    ∀ (f : JFields) (ps : List String), dumpsFields f = Except.ok ps → ∀ p ∈ ps, '\n' ∉ p.data
  | .nil, ps, h => by
    simp only [dumpsFields, Except.ok.injEq] at h
    subst h
    simp
  | .cons k v tl, ps, h => by
    simp only [dumpsFields] at h
    cases hv : dumpsVal v with
    | error e =>
      rw [hv] at h
      simp at h
    | ok s1 =>
      rw [hv] at h
      cases htl : dumpsFields tl with
      | error e =>
        rw [htl] at h
        simp at h
      | ok rest =>
        rw [htl] at h
        simp only [Except.ok.injEq] at h
        subst h
        intro p hp
        rcases List.mem_cons.mp hp with hp | hp
        · subst hp
          intro hm
          simp only [String.data_append] at hm
          rcases List.mem_append.mp hm with hm | hm
          · rcases List.mem_append.mp hm with hm | hm
            · exact jsonQuote_noNL k hm
            · revert hm
              decide
          · exact dumpsVal_noNL v s1 hv hm
        · exact dumpsFields_noNL tl rest htl p hp
termination_by structural f => f
end

/-- Splitting on newlines peels off a newline-free line. -/
theorem splitNLChars_line :
    ∀ (p rest : List Char), '\n' ∉ p →
      splitNLChars (p ++ '\n' :: rest) = p :: splitNLChars rest
  | [], rest, _ => by
    simp [splitNLChars]
  | c :: p, rest, hp => by
    have hc : ¬(c = '\n') := fun hh => hp (by simp [hh])
    have hrec : splitNLChars (p.append ('\n' :: rest)) = p :: splitNLChars rest :=
      splitNLChars_line p rest (fun hh => hp (List.mem_cons_of_mem c hh))
    simp only [List.cons_append, splitNLChars, hc, if_false, hrec]

/-- `splitNLChars` never returns the empty list of pieces. -/
theorem splitNLChars_ne_nil : ∀ (cs : List Char), splitNLChars cs ≠ []
  | [] => by simp [splitNLChars]
  | c :: cs => by
    simp only [splitNLChars]
    split
    · exact List.cons_ne_nil _ _
    · split
      · exact List.cons_ne_nil _ _
      · exact List.cons_ne_nil _ _

/-- The text `encode` produces splits back into exactly the serialized lines,
in order, with the one trailing empty piece after the final newline. -/
theorem encode_splits :
    ∀ (records : List JValue) (lines : List String),
      dumpsAll records = Except.ok lines →
      ∃ t, encode records = Except.ok t ∧
        splitNLChars t.data = lines.map String.data ++ [[]]
  | [], lines, h => by
    simp only [dumpsAll, Except.ok.injEq] at h
    subst h
    exact ⟨"", rfl, by simp [splitNLChars]⟩
  | r :: rest, lines, h => by
    simp only [dumpsAll] at h
    cases hv : dumpsVal r with
    | error e =>
      rw [hv] at h
      simp at h
    | ok s =>
      rw [hv] at h
      cases htl : dumpsAll rest with
      | error e =>
        rw [htl] at h
        simp at h
      | ok ls =>
        rw [htl] at h
        simp only [Except.ok.injEq] at h
        subst h
        obtain ⟨t, ht, hsplit⟩ := encode_splits rest ls htl
        refine ⟨s ++ "\n" ++ t, ?_, ?_⟩
        · simp only [encode, hv, ht]
        · have hdata : (s ++ "\n" ++ t).data = s.data ++ '\n' :: t.data := by
            rw [String.data_append, String.data_append]
            simp
          rw [hdata, splitNLChars_line s.data t.data (dumpsVal_noNL r s hv), hsplit]
          simp

/-- `dumpsAll` yields one line per record. -/
theorem dumpsAll_length :
    ∀ (records : List JValue) (lines : List String),
      dumpsAll records = Except.ok lines → lines.length = records.length
  | [], lines, h => by
    simp only [dumpsAll, Except.ok.injEq] at h
    subst h
    rfl
  | r :: rest, lines, h => by
    simp only [dumpsAll] at h
    cases hv : dumpsVal r with
    | error e =>
      rw [hv] at h
      simp at h
    | ok s =>
      rw [hv] at h
      cases htl : dumpsAll rest with
      | error e =>
        rw [htl] at h
        simp at h
      | ok ls =>
        rw [htl] at h
        simp only [Except.ok.injEq] at h
        subst h
        simp only [List.length_cons, dumpsAll_length rest ls htl]

mutual
theorem dumpsVal_ok_of_ser :
    ∀ (v : JValue), hasUnser v = false → ∃ s, dumpsVal v = Except.ok s
  | .jnull, _ => ⟨_, rfl⟩
  | .jbool b, _ => by cases b <;> exact ⟨_, rfl⟩
  | .jint n, _ => ⟨_, rfl⟩
  | .jstr s, _ => ⟨_, rfl⟩
  | .jarr items, h => by
    simp only [hasUnser] at h
    obtain ⟨ps, hps⟩ := dumpsArr_ok_of_ser items h
    exact ⟨"[" ++ joinComma ps ++ "]", by simp only [dumpsVal, hps]⟩
  | .jobj fields, h => by
    simp only [hasUnser] at h
    obtain ⟨ps, hps⟩ := dumpsFields_ok_of_ser fields h
    exact ⟨"\x7b" ++ joinComma ps ++ "\x7d", by simp only [dumpsVal, hps]⟩
  | .jdatetime d, _ => ⟨_, rfl⟩
  | .jdate d, _ => ⟨_, rfl⟩
  | .jother t, h => by simp [hasUnser] at h
termination_by structural v => v

theorem dumpsArr_ok_of_ser :
    ∀ (a : JArray), hasUnserArr a = false → ∃ ps, dumpsArr a = Except.ok ps
  | .nil, _ => ⟨[], rfl⟩
  | .cons v tl, h => by
    simp only [hasUnserArr, Bool.or_eq_false_iff] at h
    obtain ⟨s, hs⟩ := dumpsVal_ok_of_ser v h.1
    obtain ⟨rest, hrest⟩ := dumpsArr_ok_of_ser tl h.2
    exact ⟨s :: rest, by simp only [dumpsArr, hs, hrest]⟩
termination_by structural a => a

theorem dumpsFields_ok_of_ser :
    ∀ (f : JFields), hasUnserFields f = false → ∃ ps, dumpsFields f = Except.ok ps
  | .nil, _ => ⟨[], rfl⟩
  | .cons k v tl, h => by
    simp only [hasUnserFields, Bool.or_eq_false_iff] at h
    obtain ⟨s, hs⟩ := dumpsVal_ok_of_ser v h.1
    obtain ⟨rest, hrest⟩ := dumpsFields_ok_of_ser tl h.2
    exact ⟨(jsonQuote k ++ ": " ++ s) :: rest, by simp only [dumpsFields, hs, hrest]⟩
termination_by structural f => f
end

mutual
theorem dumpsVal_err_of_unser :
    ∀ (v : JValue), hasUnser v = true →
      ∃ m, dumpsVal v = Except.error (SerErr.typeError m)
  | .jnull, h => by simp [hasUnser] at h
  | .jbool b, h => by simp [hasUnser] at h
  | .jint n, h => by simp [hasUnser] at h
  | .jstr s, h => by simp [hasUnser] at h
  | .jarr items, h => by
    simp only [hasUnser] at h
    obtain ⟨m, hm⟩ := dumpsArr_err_of_unser items h
    exact ⟨m, by simp only [dumpsVal, hm]⟩
  | .jobj fields, h => by
    simp only [hasUnser] at h
    obtain ⟨m, hm⟩ := dumpsFields_err_of_unser fields h
    exact ⟨m, by simp only [dumpsVal, hm]⟩
  | .jdatetime d, h => by simp [hasUnser] at h
  | .jdate d, h => by simp [hasUnser] at h
  | .jother t, _ => ⟨"Type " ++ t ++ " not serializable", rfl⟩
termination_by structural v => v

theorem dumpsArr_err_of_unser :
    ∀ (a : JArray), hasUnserArr a = true →
      ∃ m, dumpsArr a = Except.error (SerErr.typeError m)
  | .nil, h => by simp [hasUnserArr] at h
  | .cons v tl, h => by
    cases hv : hasUnser v with
    | true =>
      obtain ⟨m, hm⟩ := dumpsVal_err_of_unser v hv
      exact ⟨m, by simp only [dumpsArr, hm]⟩
    | false =>
      have htl : hasUnserArr tl = true := by
        simp only [hasUnserArr, hv, Bool.false_or] at h
        exact h
      obtain ⟨s, hs⟩ := dumpsVal_ok_of_ser v hv
      obtain ⟨m, hm⟩ := dumpsArr_err_of_unser tl htl
      exact ⟨m, by simp only [dumpsArr, hs, hm]⟩
termination_by structural a => a

theorem dumpsFields_err_of_unser :
    ∀ (f : JFields), hasUnserFields f = true →
      ∃ m, dumpsFields f = Except.error (SerErr.typeError m)
  | .nil, h => by simp [hasUnserFields] at h
  | .cons k v tl, h => by
    cases hv : hasUnser v with
    | true =>
      obtain ⟨m, hm⟩ := dumpsVal_err_of_unser v hv
      exact ⟨m, by simp only [dumpsFields, hm]⟩
    | false =>
      have htl : hasUnserFields tl = true := by
        simp only [hasUnserFields, hv, Bool.false_or] at h
        exact h
      obtain ⟨s, hs⟩ := dumpsVal_ok_of_ser v hv
      obtain ⟨m, hm⟩ := dumpsFields_err_of_unser tl htl
      exact ⟨m, by simp only [dumpsFields, hs, hm]⟩
termination_by structural f => f
end

/-- A batch with no unserializable value encodes successfully. -/
theorem encode_ok_of_ser :
    ∀ (rs : List JValue), batchHasUnser rs = false → ∃ t, encode rs = Except.ok t
  | [], _ => ⟨"", rfl⟩
  | r :: rest, h => by
    simp only [batchHasUnser, List.any_cons, Bool.or_eq_false_iff] at h
    obtain ⟨s, hs⟩ := dumpsVal_ok_of_ser r h.1
    obtain ⟨t, ht⟩ := encode_ok_of_ser rest h.2
    exact ⟨s ++ "\n" ++ t, by simp only [encode, hs, ht]⟩

/-- A batch holding an unserializable value fails to encode with a
`TypeError`. -/
theorem encode_err_of_unser :
    ∀ (rs : List JValue), batchHasUnser rs = true →
      ∃ m, encode rs = Except.error (SerErr.typeError m)
  | [], h => by simp [batchHasUnser] at h
  | r :: rest, h => by
    cases hv : hasUnser r with
    | true =>
      obtain ⟨m, hm⟩ := dumpsVal_err_of_unser r hv
      exact ⟨m, by simp only [encode, hm]⟩
    | false =>
      have htl : batchHasUnser rest = true := by
        simp only [batchHasUnser, List.any_cons, hv, Bool.false_or] at h
        exact h
      obtain ⟨s, hs⟩ := dumpsVal_ok_of_ser r hv
      obtain ⟨m, hm⟩ := encode_err_of_unser rest htl
      exact ⟨m, by simp only [encode, hs, hm]⟩

/-- The driver loop queues exactly the fifty-runs of the id stream. -/
theorem loop_queued_eq {α : Type} (ids : List α) :
    (loop_and_fetch_stats ids).queued = chunks50 ids := by
  have h := loopGo_queued ids [] 1 [] [] (by simp [MAX_ATHENA_BATCH_SIZE])
  simpa [loop_and_fetch_stats] using h

/-- Appending to a string that does not start with a slash cannot make it
start with one, provided the appended part does not either. -/
theorem startsSlash_append_false (u v : String)
    (hu : strStartsWithSlash u = false) (hv : strStartsWithSlash v = false) :
    strStartsWithSlash (u ++ v) = false := by
  rcases hd : u.data with _ | ⟨c, cs⟩
  · have hdata : (u ++ v).data = v.data := by
      rw [String.data_append, hd]
      rfl
    simp only [strStartsWithSlash, hdata]
    exact hv
  · have hdata : (u ++ v).data = c :: (cs ++ v.data) := by
      rw [String.data_append, hd]
      rfl
    simp only [strStartsWithSlash, hd] at hu
    simp only [strStartsWithSlash, hdata]
    exact hu

/-- Claim C1: for every identifier count N ≥ 0 the batching loop enqueues
exactly ⌈N / 50⌉ chunks (0 chunks iff N = 0), every identifier appears in
exactly one enqueued chunk (their concatenation is the id stream itself),
every enqueued chunk is nonempty with at most 50 ids, and every chunk except
possibly the last has exactly 50. -/
theorem c1_batcher_chunk_sizes_and_coverage {α : Type} (ids : List α) :
    (loop_and_fetch_stats ids).queued.length
        = (ids.length + (MAX_ATHENA_BATCH_SIZE - 1)) / MAX_ATHENA_BATCH_SIZE
    ∧ ((loop_and_fetch_stats ids).queued = [] ↔ ids = [])
    ∧ (loop_and_fetch_stats ids).queued.flatten = ids
    ∧ (∀ c ∈ (loop_and_fetch_stats ids).queued,
        1 ≤ c.length ∧ c.length ≤ MAX_ATHENA_BATCH_SIZE)
    ∧ (∀ c ∈ (loop_and_fetch_stats ids).queued.dropLast,
        c.length = MAX_ATHENA_BATCH_SIZE) := by
  rw [loop_queued_eq]
  exact ⟨chunks50_length ids, chunks50_eq_nil_iff ids, chunks50_flatten ids,
    chunks50_sizes ids, chunks50_dropLast_sizes ids⟩

/-- Claim C9: chunks preserve source order: each enqueued chunk is a
contiguous slice of the id stream and the concatenation of the enqueued
chunks in submission order is exactly the id stream. -/
theorem c9_chunks_contiguous_in_order {α : Type} (ids : List α) :
    (loop_and_fetch_stats ids).queued.flatten = ids
    ∧ ∀ c ∈ (loop_and_fetch_stats ids).queued, ∃ l r, ids = l ++ c ++ r := by
  rw [loop_queued_eq]
  refine ⟨chunks50_flatten ids, fun c hc => ?_⟩
  obtain ⟨s, t, hst⟩ := List.append_of_mem hc
  refine ⟨s.flatten, t.flatten, ?_⟩
  conv_lhs => rw [← chunks50_flatten ids, hst]
  simp [List.flatten_append, List.flatten_cons, List.append_assoc]

/-- Claim C2: whenever the id count is positive and not a multiple of 50, the
trailing partial chunk is both put on the work queue (where a worker fetches
and uploads it) and separately fetched and uploaded synchronously by the
driver (source lines 81-83), so the run uploads that chunk's records twice. -/
theorem c2_trailing_chunk_double_processed {α β : Type} [BEq β] [LawfulBEq β]
    (ids : List α) (f : List α → β)
    (h1 : ids ≠ []) (h2 : ids.length % MAX_ATHENA_BATCH_SIZE ≠ 0) :
    ∃ last, (loop_and_fetch_stats ids).syncChunk = some last
      ∧ last ∈ (loop_and_fetch_stats ids).queued
      ∧ uploadsOfRun f ids = (loop_and_fetch_stats ids).queued.map f ++ [f last]
      ∧ 2 ≤ (uploadsOfRun f ids).count (f last) := by
  have hiff := loopGo_syncChunk ids [] 1 [] [] (by simp [MAX_ATHENA_BATCH_SIZE])
  rw [List.nil_append] at hiff
  cases hsync : (loop_and_fetch_stats ids).syncChunk with
  | none => exact absurd (hiff.mp hsync) h2
  | some last =>
    have hmem : last ∈ (loop_and_fetch_stats ids).queued :=
      loopGo_sync_mem ids [] 1 [] [] last hsync
    have hru : uploadsOfRun f ids
        = (loop_and_fetch_stats ids).queued.map f ++ [f last] := by
      simp only [uploadsOfRun, hsync]
    refine ⟨last, rfl, hmem, hru, ?_⟩
    have hpos : 0 < ((loop_and_fetch_stats ids).queued.map f).count (f last) :=
      List.count_pos_iff.mpr (List.mem_map_of_mem f hmem)
    have hone : List.count (f last) [f last] = 1 := by simp
    rw [hru, List.count_append, hone]
    omega

theorem c2_trailing_chunk_double_processed_witness :
    ((List.range 51 : List Nat) ≠ []
      ∧ (List.range 51).length % MAX_ATHENA_BATCH_SIZE ≠ 0)
    ∧ ∃ last, (loop_and_fetch_stats (List.range 51)).syncChunk = some last
        ∧ last ∈ (loop_and_fetch_stats (List.range 51)).queued
        ∧ uploadsOfRun (fun c => c) (List.range 51)
            = (loop_and_fetch_stats (List.range 51)).queued.map (fun c => c)
              ++ [(fun (c : List Nat) => c) last]
        ∧ 2 ≤ (uploadsOfRun (fun c => c) (List.range 51)).count
            ((fun (c : List Nat) => c) last) :=
  ⟨⟨by decide, by decide⟩,
    c2_trailing_chunk_double_processed (List.range 51) (fun c => c)
      (by decide) (by decide)⟩

/-- Claim C3 (evaluation at the failing input): for exactly 51 identifiers
the pipeline does make exactly 2 chunks, of sizes 50 and 1, but it performs 3
uploads, not 2: the trailing 1-id chunk is uploaded both by a worker and by
the driver's synchronous re-processing. -/
theorem c3_fifty_one_ids_two_chunks_three_uploads :
    (loop_and_fetch_stats (List.range 51)).queued.map List.length = [50, 1]
    ∧ numUploads (loop_and_fetch_stats (List.range 51)) = 3
    ∧ (uploadsOfRun (fun c => c) (List.range 51)).length = 3
    ∧ ¬ numUploads (loop_and_fetch_stats (List.range 51)) = 2 := by
  refine ⟨by decide, by decide, by decide, by decide⟩

/-- Claim C4 (evaluation at the failing input): `do_work` has no exception
handler, so when `process_batch` raises on a dequeued chunk the worker never
reaches `q.task_done()`; with two queued chunks of which the first fails, the
other chunk is still processed but only one task is ever marked done, so the
`q.join()` barrier never completes. -/
theorem c4_worker_exception_skips_task_done :
    do_work_once failing_process [0] = false
    ∧ do_work_once failing_process [1] = true
    ∧ doneCount failing_process [[0], [1]] = 1
    ∧ ¬ q_join_completes failing_process [[0], [1]] := by
  refine ⟨by decide, by decide, by decide, ?_⟩
  intro hcon
  have hc2 : doneCount failing_process [[0], [1]] = 2 := hcon
  exact absurd hc2 (by decide)

/-- Claim C5: encoding a batch then gunzip-decompressing and splitting on
newlines yields exactly one JSON line per input record, in input order, and
every datetime value is rendered as (the JSON string of) its ISO-8601
`isoformat`. -/
theorem c5_ndjson_gzip_roundtrip (records : List JValue) (lines : List String)
    (h : dumpsAll records = Except.ok lines) :
    (∃ t, encode records = Except.ok t
      ∧ splitOnNL (gunzip (gzipCompress t)) = lines ++ [""])
    ∧ lines.length = records.length
    ∧ ∀ d : Datetime,
        dumpsVal (JValue.jdatetime d) = Except.ok (jsonQuote d.isoformat) := by
  obtain ⟨t, ht, hsplit⟩ := encode_splits records lines h
  refine ⟨⟨t, ht, ?_⟩, dumpsAll_length records lines h, fun d => rfl⟩
  have hmk : (lines.map String.data).map String.mk = lines := by
    rw [List.map_map]
    have hfun : String.mk ∘ String.data = id := funext mk_data
    rw [hfun, List.map_id]
  simp only [splitOnNL, gunzip, gzipCompress]
  rw [hsplit, List.map_append, hmk]
  rfl

theorem c5_ndjson_gzip_roundtrip_witness :
    dumpsAll [JValue.jobj (JFields.cons "ts"
        (JValue.jdatetime ⟨2023, 1, 1, 0, 0, 0, 0⟩) JFields.nil),
      JValue.jint 7]
      = Except.ok ["\x7b\"ts\": \"2023-01-01T00:00:00\"\x7d", "7"]
    ∧ ((∃ t, encode [JValue.jobj (JFields.cons "ts"
          (JValue.jdatetime ⟨2023, 1, 1, 0, 0, 0, 0⟩) JFields.nil),
        JValue.jint 7] = Except.ok t
        ∧ splitOnNL (gunzip (gzipCompress t))
          = ["\x7b\"ts\": \"2023-01-01T00:00:00\"\x7d", "7"] ++ [""])
      ∧ (["\x7b\"ts\": \"2023-01-01T00:00:00\"\x7d", "7"] : List String).length
          = ([JValue.jobj (JFields.cons "ts"
              (JValue.jdatetime ⟨2023, 1, 1, 0, 0, 0, 0⟩) JFields.nil),
            JValue.jint 7] : List JValue).length
      ∧ ∀ d : Datetime,
          dumpsVal (JValue.jdatetime d) = Except.ok (jsonQuote d.isoformat)) :=
  ⟨by rfl,
    c5_ndjson_gzip_roundtrip
      [JValue.jobj (JFields.cons "ts"
          (JValue.jdatetime ⟨2023, 1, 1, 0, 0, 0, 0⟩) JFields.nil),
        JValue.jint 7]
      ["\x7b\"ts\": \"2023-01-01T00:00:00\"\x7d", "7"] (by rfl)⟩

/-- Claim C6: for every uploaded batch the object key is
`pfx ++ "/" ++ uuid ++ ".json.gz"` (for any key prefix that is nonempty and
does not itself end in a slash, the generic case of `os.path.join`), and
exactly one object-store PUT is performed, with content type `text/plain` and
content encoding `gzip`.  `u` stands for the freshly generated
`str(uuid.uuid4())`, which never begins with a slash. -/
theorem c6_upload_single_put_key_and_headers (records : List JValue)
    (bucket pfx u text : String)
    (henc : encode records = Except.ok text)
    (hp1 : pfx ≠ "") (hp2 : strEndsWithSlash pfx = false)
    (hu : strStartsWithSlash u = false) :
    upload_to_s3 records bucket pfx u
      = Except.ok [{ bucket := bucket
                     key := pfx ++ "/" ++ (u ++ ".json.gz")
                     contentType := "text/plain"
                     contentEncoding := "gzip"
                     body := gzipCompress text }]
    ∧ ∀ reqs, upload_to_s3 records bucket pfx u = Except.ok reqs →
        reqs.length = 1 := by
  have hkey : os_path_join pfx (u ++ ".json.gz")
      = pfx ++ "/" ++ (u ++ ".json.gz") := by
    have hslash : strStartsWithSlash (u ++ ".json.gz") = false :=
      startsSlash_append_false u ".json.gz" hu (by decide)
    simp only [os_path_join, hslash, hp1, hp2, Bool.false_eq_true, if_false]
  constructor
  · simp only [upload_to_s3, henc, hkey]
  · intro reqs hr
    simp only [upload_to_s3, henc, Except.ok.injEq] at hr
    rw [← hr]
    rfl

theorem c6_upload_single_put_witness :
    (encode [JValue.jint 7] = Except.ok "7\n"
      ∧ ("stats" : String) ≠ ""
      ∧ strEndsWithSlash "stats" = false
      ∧ strStartsWithSlash "3fa85f64" = false)
    ∧ (upload_to_s3 [JValue.jint 7] "bkt" "stats" "3fa85f64"
        = Except.ok [{ bucket := "bkt"
                       key := "stats" ++ "/" ++ ("3fa85f64" ++ ".json.gz")
                       contentType := "text/plain"
                       contentEncoding := "gzip"
                       body := gzipCompress "7\n" }]
      ∧ ∀ reqs, upload_to_s3 [JValue.jint 7] "bkt" "stats" "3fa85f64"
          = Except.ok reqs → reqs.length = 1) :=
  ⟨⟨by rfl, by decide, by rfl, by rfl⟩,
    c6_upload_single_put_key_and_headers [JValue.jint 7] "bkt" "stats"
      "3fa85f64" "7\n" (by rfl) (by decide) (by rfl) (by rfl)⟩

/-- Claim C7: a record value of a type with no JSON representation (and which
is not a datetime or date) makes the whole containing batch fail with a
`TypeError`, and the failure is scoped to that one batch: any other batch
free of such values still encodes successfully. -/
theorem c7_serialization_error_scoped_to_batch (batches : List (List JValue))
    (i j : Nat) (hi : i < batches.length) (hj : j < batches.length)
    (hi2 : i < (batches.map encode).length)
    (hj2 : j < (batches.map encode).length)
    (hbad : batchHasUnser (batches.get ⟨i, hi⟩) = true)
    (hgood : batchHasUnser (batches.get ⟨j, hj⟩) = false) :
    (∃ m, (batches.map encode).get ⟨i, hi2⟩
        = Except.error (SerErr.typeError m))
    ∧ ∃ t, (batches.map encode).get ⟨j, hj2⟩ = Except.ok t := by
  have hmi : (batches.map encode).get ⟨i, hi2⟩ = encode (batches.get ⟨i, hi⟩) := by
    simp [List.get_eq_getElem, List.getElem_map]
  have hmj : (batches.map encode).get ⟨j, hj2⟩ = encode (batches.get ⟨j, hj⟩) := by
    simp [List.get_eq_getElem, List.getElem_map]
  rw [hmi, hmj]
  exact ⟨encode_err_of_unser _ hbad, encode_ok_of_ser _ hgood⟩

theorem c7_serialization_error_scoped_witness :
    (batchHasUnser [JValue.jother "<class 'set'>"] = true
      ∧ batchHasUnser [JValue.jint 1] = false)
    ∧ ((∃ m, ([[JValue.jother "<class 'set'>"], [JValue.jint 1]].map encode).get
          ⟨0, by decide⟩ = Except.error (SerErr.typeError m))
      ∧ ∃ t, ([[JValue.jother "<class 'set'>"], [JValue.jint 1]].map encode).get
          ⟨1, by decide⟩ = Except.ok t) :=
  ⟨⟨by rfl, by rfl⟩,
    c7_serialization_error_scoped_to_batch
      [[JValue.jother "<class 'set'>"], [JValue.jint 1]] 0 1
      (by decide) (by decide) (by decide) (by decide) (by rfl) (by rfl)⟩

/-- Claim C8 (evaluation at the failing input): the per-full-chunk progress
messages are correct, but the final-batch message is not: for 51 ids the code
prints final batch number 3 and running total 101 (`counter` was already
incremented, so `counter + 1` and `counter * 50 + len` overshoot), while the
true values are batch 2 and 51 total ids dispatched. -/
theorem c8_final_batch_message_off_by_one :
    (loop_and_fetch_stats (List.range 51)).batchMsgs = [(1, 50)]
    ∧ (loop_and_fetch_stats (List.range 51)).finalMsg = some (3, 101)
    ∧ (loop_and_fetch_stats (List.range 51)).queued.length = 2
    ∧ (loop_and_fetch_stats (List.range 51)).queued.flatten.length = 51
    ∧ ¬ (loop_and_fetch_stats (List.range 51)).finalMsg = some (2, 51) := by
  refine ⟨by decide, by decide, by decide, by decide, by decide⟩

/-- Claim C10: the `json_serial` fallback accepts both datetime and date
values, returning the ISO-8601 `isoformat` string instead of raising, and a
date-typed field is therefore rendered in the output as (the JSON string of)
its ISO date. -/
theorem c10_json_serial_datetime_and_date :
    (∀ d : Datetime, json_serial (JValue.jdatetime d) = Except.ok d.isoformat)
    ∧ (∀ d : PyDate, json_serial (JValue.jdate d) = Except.ok d.isoformat)
    ∧ (∀ d : PyDate,
        dumpsVal (JValue.jdate d) = Except.ok (jsonQuote d.isoformat)) :=
  ⟨fun _ => rfl, fun _ => rfl, fun _ => rfl⟩
